import Mathlib

/-!
A verification development for the `muxpatterns` HTTP routing-pattern
library.  The Go sources are embedded shallowly:

* Go strings are modelled as `List Char` (`GoStr`).  All string operations
  used by the code (`strings.Cut`, `strings.IndexByte`, slicing at a byte
  index, suffix tests) act on ASCII bytes, where byte positions and rune
  positions coincide, so the list-of-chars model is faithful for the
  inputs considered here.
* `unicode.IsLetter` / `unicode.IsDigit` (Go standard library, external to
  the repository) are modelled by their ASCII restrictions; none of the
  theorems below depend on the treatment of non-ASCII letters.
* Go `panic` is modelled by returning `none` from an `Option`-valued
  function; fallible functions return `Except`.
* `http.Handler` values are opaque to the library (it only stores and
  returns them), so tree leaves are modelled by their pattern alone, and
  the multiplexer's answer carries the matched pattern instead of the
  handler.  The `location` diagnostic strings are likewise omitted.

The brace characters appear below as `braceO`/`braceC`.
-/

namespace Muxpatterns

/-- Go strings, modelled as lists of characters. -/
abbrev GoStr := List Char

/-- Convert a Lean string literal to the `GoStr` model. -/
def str (s : String) : GoStr := s.data

/-- The character `{`. -/
def braceO : Char := Char.ofNat 123

/-- The character `}`. -/
def braceC : Char := Char.ofNat 125

/-- Go `strings.Cut(s, sep)` for a one-character separator: the part
before the first occurrence, the part after it, and whether it was found. -/
def cutCh (c : Char) (s : GoStr) : GoStr × GoStr × Bool :=
  match s.dropWhile (· ≠ c) with
  | [] => (s, [], false)
  | _ :: rest => (s.takeWhile (· ≠ c), rest, true)

/-- A segment of a pattern path (`pattern.go`).
If `wild` is false it matches a literal segment, or, if `s = "/"`, a
trailing slash.  If `wild` is true and `multi` is false it matches a single
path segment; if both are true it matches all remaining path segments. -/
structure segment where
  s : GoStr
  wild : Bool
  multi : Bool
deriving DecidableEq, Repr

/-- A Pattern: optional method, optional host, and path segments
(`pattern.go`).  Paths ending in `/` are represented with an anonymous
`...` wildcard; paths ending in `{$}` are represented with the literal
segment `/`. -/
structure Pattern where
  method : GoStr
  host : GoStr
  segments : List segment
deriving DecidableEq, Repr

/-- The list of valid HTTP methods from `pattern.go` (`var methods`). -/
def methods : List GoStr :=
  [str "GET", str "HEAD", str "POST", str "PUT", str "PATCH",
   str "DELETE", str "OPTIONS", str "TRACE"]

/-- The five-valued relationship between two patterns (`pattern.go`). -/
inductive rel where
  | moreSpecific
  | moreGeneral
  | overlaps
  | equivalent
  | disjoint
deriving DecidableEq, Repr

open rel

/-- The result of `comparePaths` when both segment lists are exhausted:
the final `switch` of `Pattern.comparePaths`. -/
def endRel (wild1MatchedLit2 wild2MatchedLit1 : Bool) : rel :=
  if wild1MatchedLit2 ∧ ¬wild2MatchedLit1 then moreGeneral
  else if wild2MatchedLit1 ∧ ¬wild1MatchedLit2 then moreSpecific
  else if ¬wild1MatchedLit2 ∧ ¬wild2MatchedLit1 then equivalent
  else overlaps

/-- The lockstep loop of `Pattern.comparePaths`, carrying the two
wildcard-matched-literal flags. -/
def comparePathsLoop : List segment → List segment → Bool → Bool → rel
  | [], [], w1, w2 => endRel w1 w2
  | [], _ :: _, _, _ => disjoint
  | _ :: _, [], _, _ => disjoint
  | s1 :: t1, s2 :: t2, w1, w2 =>
    if s1.multi ∧ s2.multi then
      comparePathsLoop t1 t2 w1 w2
    else if s1.multi then
      (if ¬w2 then moreGeneral else overlaps)
    else if s2.multi then
      (if ¬w1 then moreSpecific else overlaps)
    else if s1.s = str "/" ∧ s2.s = str "/" then
      comparePathsLoop t1 t2 w1 w2
    else if s1.s = str "/" ∨ s2.s = str "/" then
      disjoint
    else if s1.wild ∧ s2.wild then
      comparePathsLoop t1 t2 w1 w2
    else if s1.wild then
      comparePathsLoop t1 t2 true w2
    else if s2.wild then
      comparePathsLoop t1 t2 w1 true
    else if s1.s ≠ s2.s then
      disjoint
    else
      comparePathsLoop t1 t2 w1 w2

/-- `Pattern.comparePaths` (`pattern.go`): the relationship between the
paths of two patterns. -/
def comparePaths (p1 p2 : Pattern) : rel :=
  comparePathsLoop p1.segments p2.segments false false

/-- `Pattern.compareMethods` (`pattern.go`). -/
def compareMethods (p1 p2 : Pattern) : rel :=
  if p1.method = p2.method then equivalent
  else if p1.method = [] then moreGeneral
  else if p2.method = [] then moreSpecific
  else disjoint

/-- `combineRelationships` (`pattern.go`). -/
def combineRelationships (methodRel pathRel : rel) : rel :=
  match methodRel with
  | equivalent => pathRel
  | moreGeneral =>
    match pathRel with
    | equivalent => moreGeneral
    | moreSpecific => overlaps
    | _ => pathRel
  | moreSpecific =>
    match pathRel with
    | equivalent => moreSpecific
    | moreGeneral => overlaps
    | _ => pathRel
  | _ => disjoint

/-- `Pattern.comparePathsAndMethods` (`pattern.go`). -/
def comparePathsAndMethods (p1 p2 : Pattern) : rel :=
  let mr := compareMethods p1 p2
  if mr = disjoint then disjoint
  else combineRelationships mr (comparePaths p1 p2)

/-- `Pattern.HigherPrecedence` (`pattern.go`). -/
def HigherPrecedence (p1 p2 : Pattern) : Bool :=
  if (p1.host = ([] : GoStr)) ≠ (p2.host = ([] : GoStr)) then
    p1.host ≠ []
  else
    comparePathsAndMethods p1 p2 = moreSpecific

/-- `Pattern.ConflictsWith` (`pattern.go`). -/
def ConflictsWith (p1 p2 : Pattern) : Bool :=
  if p1.host ≠ p2.host then false
  else
    let r := comparePathsAndMethods p1 p2
    r = equivalent ∨ r = overlaps

/-! ### Path cleaning (`serveMux.go`: `mightNeedCleaning`, `cleanPath`) -/

/-- The scanning loop of `mightNeedCleaning`, carrying the previous byte. -/
def mightNeedCleaningLoop : Char → GoStr → Bool
  | _, [] => false
  | prev, c :: rest =>
    if prev = '/' ∧ (c = '/' ∨ c = '.') then true
    else mightNeedCleaningLoop c rest

/-- `mightNeedCleaning` (`serveMux.go`): a fast scan for `//` or `/.`. -/
def mightNeedCleaning (p : GoStr) : Bool :=
  mightNeedCleaningLoop ' ' p

/-- One step of the segment stack underlying `path.Clean`: skip empty and
`.` segments, let `..` pop (or accumulate, when the path is relative). -/
def cleanSegsStep (rooted : Bool) (out : List GoStr) (sg : GoStr) : List GoStr :=
  if sg = [] ∨ sg = str "." then out
  else if sg = str ".." then
    if out ≠ [] ∧ out.getLast? ≠ some (str "..") then out.dropLast
    else if ¬rooted then out ++ [sg]
    else out
  else out ++ [sg]

/-- Modelled from the spec: Go's `path.Clean` (standard library, external
to this repository), described in §6 of the spec as collapsing `.`, `..`
and `//` segments.  Empty input yields `.`; a rooted result keeps its
leading slash; `..` at the root is dropped. -/
def pathClean (p : GoStr) : GoStr :=
  if p = [] then str "."
  else
    let rooted := p.head? = some '/'
    let out := (p.splitOn '/').foldl (cleanSegsStep rooted) []
    let r := (if rooted then str "/" else []) ++ (str "/").intercalate out
    if r = [] then str "." else r

/-- `cleanPath` (`serveMux.go`): canonicalise a request path, restoring a
trailing slash that `path.Clean` strips. -/
def cleanPath (p : GoStr) : GoStr :=
  if p = [] then str "/"
  else
    let p := if p.head? ≠ some '/' then '/' :: p else p
    if ¬mightNeedCleaning p then p
    else
      let np := pathClean p
      if p.getLast? = some '/' ∧ np ≠ str "/" then
        if p.length = np.length + 1 ∧ np.isPrefixOf p then p
        else np ++ str "/"
      else np

/-! ### The pattern parser (`pattern.go`: `Parse`) -/

/-- The method part of a pattern text: `strings.Cut(s, " ")`, with the
method empty when there is no space (`Parse`, `pattern.go`). -/
def methodOf (s : GoStr) : GoStr :=
  if (cutCh ' ' s).2.2 then (cutCh ' ' s).1 else []

/-- The rest of a pattern text after the method cut (`Parse`). -/
def restOf (s : GoStr) : GoStr :=
  if (cutCh ' ' s).2.2 then (cutCh ' ' s).2.1 else s

/-- The host part: everything before the first `/` of the rest (`Parse`). -/
def hostOf (s : GoStr) : GoStr :=
  (restOf s).takeWhile (· ≠ '/')

/-- The path part: everything from the first `/` of the rest (`Parse`). -/
def pathOf (s : GoStr) : GoStr :=
  (restOf s).dropWhile (· ≠ '/')

/-- `isValidWildcardName` (`pattern.go`): a valid Go identifier.
`unicode.IsLetter`/`IsDigit` are modelled by their ASCII restrictions. -/
def isValidWildcardName (s : GoStr) : Bool :=
  match s with
  | [] => false
  | c :: rest =>
    (c.isAlpha || c = '_') && rest.all (fun d => d.isAlpha || d = '_' || d.isDigit)

/-- The segment loop of `Parse` (`pattern.go`), structurally recursive
on a fuel bound for the remaining length (the wrapper `parseSegs` passes
the exact length, so the out-of-fuel branch is unreachable).  The input
starts with `/` (or is empty at the end); `seen` carries the wildcard
names used so far (`seenNames`). -/
def parseSegsF : Nat → GoStr → List GoStr → Except GoStr (List segment)
  | _, [], _ => .ok []
  | 0, _ :: _, _ => .error (str "out of fuel")   -- unreachable
  | fuel + 1, _ :: r, seen =>
    -- the dropped character is the leading slash
    if r = [] then .ok [⟨[], true, true⟩]   -- trailing slash
    else
      let sg := r.takeWhile (· ≠ '/')
      let rest2 := r.dropWhile (· ≠ '/')
      if ¬sg.contains braceO then
        -- literal segment
        match parseSegsF fuel rest2 seen with
        | .error e => .error e
        | .ok segs => .ok (⟨sg, false, false⟩ :: segs)
      else if sg.head? ≠ some braceO then
        .error (str "bad wildcard segment: must start with a brace")
      else if sg.getLast? ≠ some braceC then
        .error (str "bad wildcard segment: must end with a brace")
      else
        let nm := (sg.drop 1).dropLast
        if nm = str "$" then
          if rest2 ≠ [] then .error (str "end anchor not at end")
          else .ok [⟨str "/", false, false⟩]
        else
          let multi := (str "...").isSuffixOf nm
          let nm2 := if multi then nm.take (nm.length - 3) else nm
          if multi ∧ rest2 ≠ [] then .error (str "multi wildcard not at end")
          else if nm2 = [] then .error (str "empty wildcard")
          else if ¬isValidWildcardName nm2 then .error (str "bad wildcard name")
          else if seen.contains nm2 then .error (str "duplicate wildcard name")
          else
            match parseSegsF fuel rest2 (nm2 :: seen) with
            | .error e => .error e
            | .ok segs => .ok (⟨nm2, true, multi⟩ :: segs)

/-- The segment loop of `Parse`, at its exact fuel. -/
def parseSegs (rest : GoStr) (seen : List GoStr) :
    Except GoStr (List segment) :=
  parseSegsF rest.length rest seen

/-- `Parse` (`pattern.go`): parse a pattern text. -/
def parse (s : GoStr) : Except GoStr Pattern :=
  if s = [] then .error (str "empty pattern")
  else if methodOf s ≠ [] ∧ ¬methods.contains (methodOf s) then
    .error (str "bad method")
  else if pathOf s = [] then .error (str "host/path missing slash")
  else if (hostOf s).contains braceO then .error (str "host contains brace")
  else if methodOf s ≠ [] ∧ methodOf s ≠ str "CONNECT" ∧
      pathOf s ≠ cleanPath (pathOf s) then
    .error (str "non-CONNECT pattern with unclean path can never match")
  else
    match parseSegs (pathOf s) [] with
    | .error e => .error e
    | .ok segs => .ok ⟨methodOf s, hostOf s, segs⟩

/-! ### Printing (`pattern.go`: `Pattern.String`, `segment.String`) -/

/-- `segment.String` (`pattern.go`). -/
def segString (sg : segment) : GoStr :=
  if sg.multi ∧ sg.s = [] then str "/"
  else if sg.multi then str "/" ++ [braceO] ++ sg.s ++ str "..." ++ [braceC]
  else if sg.wild then str "/" ++ [braceO] ++ sg.s ++ [braceC]
  else if sg.s = str "/" then str "/" ++ [braceO] ++ str "$" ++ [braceC]
  else str "/" ++ sg.s

/-- The concatenation of the segment strings of a path. -/
def segsString (segs : List segment) : GoStr :=
  (segs.map segString).flatten

/-- `Pattern.String` (`pattern.go`). -/
def patternString (p : Pattern) : GoStr :=
  (if p.method ≠ [] then p.method ++ [' '] else []) ++ p.host ++
    segsString p.segments

/-! ### The conflict index (`index.go`) -/

/-- The key of the conflict index (`index.go`): a 0-based segment
position together with the literal there, or the empty string for a
wildcard. -/
structure indexKey where
  pos : Nat
  s : GoStr
deriving DecidableEq, Repr

/-- The conflict index (`index.go`).  The Go map is modelled as an
association list; only the pattern lists bound to each key are
observable. -/
structure conflictIndex where
  segments : List (indexKey × List Pattern)
  multis : List Pattern
deriving Repr

/-- `newIndex` (`index.go`). -/
def emptyIndex : conflictIndex := ⟨[], []⟩

/-- Map lookup `idx.segments[key]`: a missing key yields the empty list
(the Go zero value). -/
def idxFind (idx : conflictIndex) (k : indexKey) : List Pattern :=
  match idx.segments.find? (fun e => e.1 = k) with
  | some e => e.2
  | none => []

/-- `idx.segments[key] = append(idx.segments[key], pat)` on the
association-list model. -/
def idxAppend : List (indexKey × List Pattern) → indexKey → Pattern →
    List (indexKey × List Pattern)
  | [], k, p => [(k, [p])]
  | e :: rest, k, p =>
    if e.1 = k then (e.1, e.2 ++ [p]) :: rest else e :: idxAppend rest k p

/-- `Pattern.lastSegment`.  Modelled from the spec: the helper is called
by `index.go` and `serveMux.go` but its definition is not among the
sources; §4.5 of the spec reads it as the final segment of the pattern.
The (unreachable) empty-segment case yields a harmless default. -/
def lastSegment (p : Pattern) : segment :=
  p.segments.getLastD ⟨[], false, false⟩

/-- `index.addPattern` (`index.go`). -/
def indexAddPattern (idx : conflictIndex) (pat : Pattern) : conflictIndex :=
  if (lastSegment pat).multi then
    { idx with multis := idx.multis ++ [pat] }
  else
    let segs := pat.segments.enum.foldl
      (fun l pr => idxAppend l ⟨pr.1, if pr.2.wild then [] else pr.2.s⟩ pat)
      idx.segments
    { idx with segments := segs }

/-- Go `math.MaxInt` on a 64-bit platform. -/
def maxInt : Nat := 2 ^ 63 - 1

/-- The position-selection loop of `possiblyConflictingPatterns`
(`index.go`): walk the segments, breaking at the first multi, and track
the literal position whose two index lists are together smallest.  The
accumulator is `(lmin, wmin, min, hasLit)`. -/
def selectMinLoop (idx : conflictIndex) :
    List (Nat × segment) → List Pattern × List Pattern × Nat × Bool →
      List Pattern × List Pattern × Nat × Bool
  | [], acc => acc
  | (i, sg) :: rest, (lmin, wmin, m, hasLit) =>
    if sg.multi then (lmin, wmin, m, hasLit)
    else if ¬sg.wild then
      let lpats := idxFind idx ⟨i, sg.s⟩
      let wpats := idxFind idx ⟨i, []⟩
      let sum := lpats.length + wpats.length
      if sum < m then selectMinLoop idx rest (lpats, wpats, sum, true)
      else selectMinLoop idx rest (lmin, wmin, m, true)
    else selectMinLoop idx rest (lmin, wmin, m, hasLit)

/-- `index.possiblyConflictingPatterns` (`index.go`), with the visiting
callback reified as the list of patterns passed to it, in order. -/
def possiblyConflictingList (idx : conflictIndex) (pat : Pattern) :
    List Pattern :=
  if (lastSegment pat).s = str "/" then
    idxFind idx ⟨pat.segments.length - 1, str "/"⟩ ++ idx.multis
  else
    let r := selectMinLoop idx pat.segments.enum ([], [], maxInt, false)
    if ¬r.2.2.2 then
      -- the pattern is all wildcards
      idxFind idx ⟨pat.segments.length - 1, []⟩ ++ idx.multis
    else
      r.1 ++ r.2.1 ++ idx.multis

/-! ### The hybrid mapping (`tree.go`: `type mapping`) -/

/-- `maxSlice` (`tree.go`): the maximum number of pairs held in a slice. -/
def maxSlice : Nat := 8

/-- The hybrid key-value container of `tree.go`.  The value type is a
parameter (Go fixes it to `*node`; the container never inspects values).
`s` is the entry slice, `m` the Go map, modelled as an association list
and `none` while in slice mode. -/
structure mapping (α : Type) where
  s : List (GoStr × α) := []
  m : Option (List (GoStr × α)) := none

/-- Go map assignment `m[k] = v`: replace the binding or add a new one. -/
def mapAssign {α : Type} : List (GoStr × α) → GoStr → α → List (GoStr × α)
  | [], k, v => [(k, v)]
  | e :: rest, k, v =>
    if e.1 = k then (k, v) :: rest else e :: mapAssign rest k v

/-- Go map lookup `m[k]`. -/
def mapLookup {α : Type} : List (GoStr × α) → GoStr → Option α
  | [], _ => none
  | e :: rest, k => if e.1 = k then some e.2 else mapLookup rest k

/-- `mapping.add` (`tree.go`): append in slice mode while under the
threshold, otherwise promote the slice to a map and set the key. -/
def mappingAdd {α : Type} (h : mapping α) (k : GoStr) (v : α) : mapping α :=
  match h.m with
  | none =>
    if h.s.length < maxSlice then { h with s := h.s ++ [(k, v)] }
    else
      let m0 := h.s.foldl (fun m e => mapAssign m e.1 e.2) []
      { s := [], m := some (mapAssign m0 k v) }
  | some m => { h with m := some (mapAssign m k v) }

/-- `mapping.find` (`tree.go`); the Go `nil` receiver behaves as the
empty value. -/
def mappingFind {α : Type} (h : mapping α) (k : GoStr) : Option α :=
  match h.m with
  | some m => mapLookup m k
  | none => (h.s.find? (fun e => e.1 = k)).map (·.2)

/-! ### The decision tree (`tree.go`) -/

/-- A decision-tree node (`tree.go`).  Handlers are opaque to the
library and the `location` string is diagnostic only, so a leaf is
modelled by its pattern.  Go's nullable `children *mapping` pointer is
modelled by the mapping value itself (a nil mapping and an empty one are
observationally equal for `find`, and `addChild` allocates before
adding). -/
inductive node : Type where
  | mk (pattern : Option Pattern) (children : mapping node)
      (emptyChild : Option node) : node

/-- The pattern of a leaf node. -/
def nodePat : node → Option Pattern
  | .mk p _ _ => p

/-- The children mapping of a node. -/
def nodeChildren : node → mapping node
  | .mk _ c _ => c

/-- The empty-key child of a node. -/
def nodeEmpty : node → Option node
  | .mk _ _ e => e

/-- A fresh interior node (`&node{}`). -/
def emptyNode : node := .mk none ⟨[], none⟩ none

/-- `node.findChild` (`tree.go`). -/
def findChild (n : node) (key : GoStr) : Option node :=
  mappingFind (nodeChildren n) key

/-- `nextSegment` (`tree.go`): the next path segment, `"/"` for a
trailing slash, or `""` when done. -/
def nextSegment (path : GoStr) : GoStr × GoStr :=
  if path = str "/" then (str "/", [])
  else
    let p := path.drop 1
    (p.takeWhile (· ≠ '/'), p.dropWhile (· ≠ '/'))

/-- `node.matchPath` (`tree.go`): literal child first, then the single
wildcard, then the multi wildcard.  Structurally recursive on a fuel
bound for the path length (the wrapper `matchPath` passes the exact
length, so the out-of-fuel branch is unreachable). -/
def matchPathF : Nat → node → GoStr → List GoStr → Option (node × List GoStr)
  | _, n, [], ms =>
    match nodePat n with
    | none => none
    | some _ => some (n, ms)
  | 0, _, _ :: _, _ => none   -- unreachable
  | fuel + 1, n, path@(_ :: _), ms =>
    let sr := nextSegment path
    let viaLit :=
      match findChild n sr.1 with
      | some c => matchPathF fuel c sr.2 ms
      | none => none
    match viaLit with
    | some r => some r
    | none =>
      let viaWild :=
        match nodeEmpty n with
        | some c => matchPathF fuel c sr.2 (ms ++ [sr.1])
        | none => none
      match viaWild with
      | some r => some r
      | none =>
        match findChild n (str "*") with
        | some c => some (c, ms ++ [path.drop 1])
        | none => none

/-- `node.matchPath`, at its exact fuel. -/
def matchPath (n : node) (path : GoStr) (ms : List GoStr) :
    Option (node × List GoStr) :=
  matchPathF path.length n path ms

/-- `node.matchMethodAndPath` (`tree.go`): the exact method child, then
the anonymous method child.  The Go panic on an empty method is `none`. -/
def matchMethodAndPath (n : node) (method path : GoStr) :
    Option (Option (node × List GoStr)) :=
  if method = [] then none   -- Go: panic("empty method")
  else
    some
      (match findChild n method with
       | some c =>
         match matchPath c path [] with
         | some r => some r
         | none =>
           match nodeEmpty n with
           | some c2 => matchPath c2 path []
           | none => none
       | none =>
         match nodeEmpty n with
         | some c2 => matchPath c2 path []
         | none => none)

/-- `node.match` (`tree.go`): the host child, then the anonymous host
child.  A propagated panic is `none`. -/
def treeMatch (root : node) (method host path : GoStr) :
    Option (Option (node × List GoStr)) :=
  let hostTry : Option (Option (node × List GoStr)) :=
    if host ≠ [] then
      match findChild root host with
      | some c => matchMethodAndPath c method path
      | none => some none
    else some none
  match hostTry with
  | none => none
  | some (some r) => some (some r)
  | some none =>
    match nodeEmpty root with
    | some c => matchMethodAndPath c method path
    | none => some none

/-- The read half of `node.addChild` (`tree.go`): the existing child for
the key, or a fresh node. -/
def getOrCreateChild (n : node) (key : GoStr) : node :=
  if key = [] then (nodeEmpty n).getD emptyNode
  else (findChild n key).getD emptyNode

/-- Write an updated child back into a node, mirroring Go's in-place
pointer update from `addChild`: the empty key is the `emptyChild` slot;
an existing mapping binding is replaced in place, a new one is added with
`mapping.add`. -/
def putChild (n : node) (key : GoStr) (c : node) : node :=
  match n with
  | .mk p ch e =>
    if key = [] then .mk p ch (some c)
    else
      match mappingFind ch key with
      | some _ =>
        match ch.m with
        | some m => .mk p ⟨ch.s, some (mapAssign m key c)⟩ e
        | none => .mk p ⟨mapAssign ch.s key c, none⟩ e
      | none => .mk p (mappingAdd ch key c) e

/-- `node.set` (`tree.go`); the Go panic on an already-set leaf is
`none`.  The handler and location arguments are omitted (opaque). -/
def nodeSet (n : node) (p : Pattern) : Option node :=
  match n with
  | .mk pat ch e =>
    match pat with
    | some _ => none   -- Go: panic("non-nil leaf fields")
    | none => some (.mk (some p) ch e)

/-- `node.addSegments` (`tree.go`); Go panics are `none`. -/
def addSegments (n : node) (segs : List segment) (p : Pattern) :
    Option node :=
  match segs with
  | [] => nodeSet n p
  | sg :: rest =>
    if sg.multi then
      if rest ≠ [] then none   -- Go: panic("multi wildcard not last")
      else if (findChild n (str "*")).isSome then none   -- panic("dup multi wildcards")
      else
        match nodeSet (getOrCreateChild n (str "*")) p with
        | some c => some (putChild n (str "*") c)
        | none => none
    else if sg.wild then
      match addSegments (getOrCreateChild n []) rest p with
      | some c => some (putChild n [] c)
      | none => none
    else
      match addSegments (getOrCreateChild n sg.s) rest p with
      | some c => some (putChild n sg.s c)
      | none => none

/-- `node.addPattern` (`tree.go`): host level, then method level, then
the path segments. -/
def addPattern (root : node) (p : Pattern) : Option node :=
  let hn := getOrCreateChild root p.host
  let mn := getOrCreateChild hn p.method
  match addSegments mn p.segments p with
  | some mn2 => some (putChild root p.host (putChild hn p.method mn2))
  | none => none

/-- Build a tree by parsing and adding each pattern text in order. -/
def buildTree (texts : List GoStr) : Option node :=
  texts.foldlM
    (fun t s =>
      match parse s with
      | .ok p => addPattern t p
      | .error _ => none)
    emptyNode

/-! ### The multiplexer (`serveMux.go`) -/

/-- `stripHostPort` (`serveMux.go`).  `net.SplitHostPort` (standard
library, external) is modelled for the plain `host:port` shape: the part
before the last colon.  Hosts without a colon are returned unchanged, as
in Go.  The theorems below only use colon-free hosts. -/
def stripHostPort (h : GoStr) : GoStr :=
  if ¬h.contains ':' then h
  else ((h.reverse.dropWhile (· ≠ ':')).drop 1).reverse

/-- `exactMatch` (`serveMux.go`). -/
def exactMatch (n : Option node) (path : GoStr) : Bool :=
  match n with
  | none => false
  | some nd =>
    match nodePat nd with
    | none => false   -- unreachable: a matched node carries a pattern
    | some p =>
      if path ≠ [] ∧ path.getLast? ≠ some '/' then
        ¬(lastSegment p).multi
      else
        p.segments.length = path.count '/'

/-- `ServeMux.matchOrRedirect` (`serveMux.go`).  The URL argument is
reduced to its presence and the returned redirect URL to its path; a
propagated panic is `none`. -/
def matchOrRedirect (tree : node) (method host path : GoStr)
    (hasURL : Bool) :
    Option (Option (node × List GoStr) × Option GoStr × Bool) :=
  match treeMatch tree method host path with
  | none => none
  | some n =>
    if ¬exactMatch (n.map (·.1)) path ∧ hasURL then
      match treeMatch tree method host (path ++ str "/") with
      | none => none
      | some n2 =>
        if exactMatch (n2.map (·.1)) (path ++ str "/") then
          some (none, some (path ++ str "/"), true)
        else some (n, none, false)
    else some (n, none, false)

/-- An incoming request, reduced to the fields `ServeMux.handler` reads. -/
structure request where
  method : GoStr
  host : GoStr      -- r.Host
  urlHost : GoStr   -- r.URL.Host
  path : GoStr      -- r.URL.EscapedPath()
deriving DecidableEq, Repr

/-- The observable outcome of `ServeMux.handler`: a 301 redirect to a
path, a matched pattern with its captures, 405, or 404. -/
inductive serveResult where
  | redirect301 (path : GoStr)
  | matched (pat : Pattern) (captures : List GoStr)
  | methodNotAllowed
  | notFound
deriving DecidableEq, Repr

/-- The shared tail of `ServeMux.handler` (`serveMux.go`): distinguish
404 from 405 via a method-less match, otherwise return the leaf. -/
def muxFinish (tree : node) (host path : GoStr)
    (n : Option (node × List GoStr)) : Option serveResult :=
  match n with
  | none =>
    match matchOrRedirect tree [] host path true with
    | none => none
    | some (m, _, _) =>
      if m.isSome then some .methodNotAllowed else some .notFound
  | some (nd, ms) =>
    match nodePat nd with
    | none => none   -- Go dereferences the leaf pattern: panic on nil
    | some p => some (.matched p ms)

/-- `ServeMux.handler` (`serveMux.go`); a propagated panic is `none`. -/
def muxHandler (tree : node) (r : request) : Option serveResult :=
  if r.method = str "CONNECT" then
    -- CONNECT requests are not canonicalized.
    match matchOrRedirect tree r.method r.urlHost r.path true with
    | none => none
    | some (_, u, redirect) =>
      if redirect then some (.redirect301 (u.getD []))
      else
        -- redo the match with r.Host and no redirect logic
        match matchOrRedirect tree r.method r.host r.path false with
        | none => none
        | some (n, _, _) => muxFinish tree r.urlHost r.path n
  else
    match matchOrRedirect tree r.method (stripHostPort r.host)
        (cleanPath r.path) true with
    | none => none
    | some (n, u, redirect) =>
      if redirect then some (.redirect301 (u.getD []))
      else if cleanPath r.path ≠ r.path then
        some (.redirect301 (cleanPath r.path))
      else muxFinish tree (stripHostPort r.host) (cleanPath r.path) n

/-! ### Per-request path values (`serveMux.go`: `match`, `PathValue`) -/

/-- A recorded match (`serveMux.go`: `type match`). -/
structure matchRec where
  pat : Option Pattern
  values : List GoStr
  other : List (GoStr × GoStr)   -- Go map; reads of a nil map yield ""

/-- The counting loop of `match.index` (`serveMux.go`). -/
def matchIdxLoop : List segment → GoStr → Nat → Option Nat
  | [], _, _ => none
  | sg :: rest, name, i =>
    if sg.wild ∧ sg.s ≠ [] then
      if name = sg.s then some i else matchIdxLoop rest name (i + 1)
    else matchIdxLoop rest name i

/-- `match.index` (`serveMux.go`); the Go return value -1 is `none`. -/
def matchRecIdx (m : matchRec) (name : GoStr) : Option Nat :=
  match m.pat with
  | none => none
  | some p => matchIdxLoop p.segments name 0

/-- `match.get` (`serveMux.go`); the nil-receiver guard returns "". -/
def matchGet (m : Option matchRec) (name : GoStr) : GoStr :=
  match m with
  | none => []   -- if m == nil { return "" }
  | some mr =>
    match matchRecIdx mr name with
    | some i => (mr.values.get? i).getD []
    | none => (mapLookup mr.other name).getD []

/-- The multiplexer state the path-value surface needs: the decision
tree and the per-request binding store (keyed by request identity). -/
structure ServeMux where
  tree : node
  matchStore : List (Nat × matchRec)   -- the Go field is named for its contents: matches

/-- Go map lookup for the per-request store (keys are request
identities). -/
def storeLookup {α : Type} : List (Nat × α) → Nat → Option α
  | [], _ => none
  | e :: rest, k => if e.1 = k then some e.2 else storeLookup rest k

/-- `ServeMux.PathValue` (`serveMux.go`). -/
def PathValue (mux : ServeMux) (r : Nat) (name : GoStr) : GoStr :=
  matchGet (storeLookup mux.matchStore r) name

/-! ### Concrete patterns, trees and requests used by the theorems -/

deriving instance DecidableEq for Except

/-- Is an `Except` value an `.ok`? -/
def isOkE {e a : Type} : Except e a → Bool
  | .ok _ => true
  | .error _ => false

/-- The pattern `/a/b`. -/
def patLitAB : Pattern :=
  ⟨[], [], [⟨str "a", false, false⟩, ⟨str "b", false, false⟩]⟩

/-- The pattern `GET /{x0}/`: a single wildcard, then the anonymous
trailing-slash multi. -/
def patAllWild : Pattern :=
  ⟨str "GET", [], [⟨str "x0", true, false⟩, ⟨[], true, true⟩]⟩

/-- The pattern `/{x}`. -/
def patOneWild : Pattern := ⟨[], [], [⟨str "x", true, false⟩]⟩

/-- The pattern `/a`. -/
def patOneLit : Pattern := ⟨[], [], [⟨str "a", false, false⟩]⟩

/-- The pattern `/a/{x}`. -/
def patSlashWild : Pattern :=
  ⟨[], [], [⟨str "a", false, false⟩, ⟨str "x", true, false⟩]⟩

/-- The pattern `/a/{x}/`. -/
def patAXslash : Pattern :=
  ⟨[], [], [⟨str "a", false, false⟩, ⟨str "x", true, false⟩, ⟨[], true, true⟩]⟩

/-- The pattern `/{x}/{y}/b`. -/
def patXYB : Pattern :=
  ⟨[], [], [⟨str "x", true, false⟩, ⟨str "y", true, false⟩,
    ⟨str "b", false, false⟩]⟩

/-- The pattern `/a/b/`. -/
def patABslash : Pattern :=
  ⟨[], [], [⟨str "a", false, false⟩, ⟨str "b", false, false⟩, ⟨[], true, true⟩]⟩

/-- The pattern `/p`. -/
def patAnonP : Pattern := ⟨[], [], [⟨str "p", false, false⟩]⟩

/-- The pattern `GET /p`. -/
def patGetP : Pattern := ⟨str "GET", [], [⟨str "p", false, false⟩]⟩

/-- The pattern `GET /a/b`. -/
def patGETAB : Pattern :=
  ⟨str "GET", [], [⟨str "a", false, false⟩, ⟨str "b", false, false⟩]⟩

/-- A tree with the single registered pattern `/a/{x}/`. -/
def treeAXslash : node := (addPattern emptyNode patAXslash).getD emptyNode

/-- A tree with the registered patterns `/{x}/{y}/b` and `/a/b/`. -/
def treeXYB : node :=
  ((addPattern emptyNode patXYB).bind (fun t => addPattern t patABslash)).getD
    emptyNode

/-- A tree built from the pattern texts `GET /p` and `/p`. -/
def treeHeadGet : node :=
  (buildTree [str "GET /p", str "/p"]).getD emptyNode

/-- A tree built from the single pattern text `GET /foo`. -/
def treeGetOnly : node := (buildTree [str "GET /foo"]).getD emptyNode

/-- The request `GET /a/b` with no host. -/
def reqGetAB : request := ⟨str "GET", [], [], str "/a/b"⟩

/-- The request `CONNECT /a//b` with no host. -/
def reqConnect : request := ⟨str "CONNECT", [], [], str "/a//b"⟩

/-- Swap `moreSpecific` and `moreGeneral`; fix the symmetric values. -/
def flipRel : rel → rel
  | moreSpecific => moreGeneral
  | moreGeneral => moreSpecific
  | overlaps => overlaps
  | equivalent => equivalent
  | disjoint => disjoint

theorem endRel_flip (w1 w2 : Bool) : endRel w2 w1 = flipRel (endRel w1 w2) := by
  cases w1 <;> cases w2 <;> rfl

theorem comparePathsLoop_flip (u v : List segment) (w1 w2 : Bool) :
    comparePathsLoop v u w2 w1 = flipRel (comparePathsLoop u v w1 w2) := by
  induction u generalizing v w1 w2 with
  | nil =>
    cases v with
    | nil => simpa [comparePathsLoop] using endRel_flip w1 w2
    | cons s2 t2 => simp [comparePathsLoop, flipRel]
  | cons s1 t1 ih =>
    cases v with
    | nil => simp [comparePathsLoop, flipRel]
    | cons s2 t2 =>
      by_cases hm1 : s1.multi = true <;> by_cases hm2 : s2.multi = true <;>
      by_cases hsl1 : s1.s = str "/" <;> by_cases hsl2 : s2.s = str "/" <;>
      by_cases hw1 : s1.wild = true <;> by_cases hw2 : s2.wild = true <;>
      by_cases hss : s1.s = s2.s <;>
      cases w1 <;> cases w2 <;>
        simp [comparePathsLoop, hm1, hm2, hsl1, hsl2, hw1, hw2, hss,
          endRel, flipRel, ih,
          (show (s2.s = s1.s) ↔ s1.s = s2.s from eq_comm)]

theorem comparePaths_flip (a b : Pattern) :
    comparePaths b a = flipRel (comparePaths a b) :=
  comparePathsLoop_flip a.segments b.segments false false

theorem compareMethods_flip (a b : Pattern) :
    compareMethods b a = flipRel (compareMethods a b) := by
  unfold compareMethods
  by_cases h1 : a.method = b.method
  · simp [h1, flipRel]
  · have h1' : ¬b.method = a.method := fun h => h1 h.symm
    by_cases h2 : a.method = []
    · have : ¬b.method = [] := fun h => h1 (h2.trans h.symm)
      simp [h1, h1', h2, this, flipRel]
    · by_cases h3 : b.method = []
      · simp [h1, h1', h2, h3, flipRel]
      · simp [h1, h1', h2, h3, flipRel]

theorem combineRelationships_flip (m p : rel) :
    combineRelationships (flipRel m) (flipRel p) =
      flipRel (combineRelationships m p) := by
  cases m <;> cases p <;> rfl

theorem comparePathsAndMethods_flip (a b : Pattern) :
    comparePathsAndMethods b a = flipRel (comparePathsAndMethods a b) := by
  unfold comparePathsAndMethods
  rw [compareMethods_flip a b, comparePaths_flip a b]
  cases h : compareMethods a b <;>
    simp [flipRel, combineRelationships_flip] <;>
    cases comparePaths a b <;> rfl

/-- C2: Precedence excludes conflict — if either pattern has higher
precedence than the other, `ConflictsWith` is false. -/
theorem precedence_excludes_conflict (a b : Pattern)
    (h : HigherPrecedence a b = true ∨ HigherPrecedence b a = true) :
    ConflictsWith a b = false := by
  unfold ConflictsWith
  split_ifs with hne
  · rfl
  · have heq : a.host = b.host := not_not.mp hne
    have hps : comparePathsAndMethods a b = moreSpecific ∨
        comparePathsAndMethods a b = moreGeneral := by
      rcases h with h | h
      · left
        unfold HigherPrecedence at h
        rw [if_neg (by simp [heq])] at h
        exact of_decide_eq_true h
      · right
        unfold HigherPrecedence at h
        rw [if_neg (by simp [heq])] at h
        have h2 : comparePathsAndMethods b a = moreSpecific :=
          of_decide_eq_true h
        have h3 := comparePathsAndMethods_flip a b
        rw [h2] at h3
        cases hc : comparePathsAndMethods a b <;>
          first
          | rfl
          | (rw [hc] at h3; exact absurd h3 (by decide))
    rcases hps with hp | hp <;> simp [hp]

/-- Witness for C2 at `/a/b` and `/a/{x}`. -/
theorem precedence_excludes_conflict_witness :
    HigherPrecedence patLitAB patSlashWild = true ∧
    ConflictsWith patLitAB patSlashWild = false :=
  ⟨by decide,
   precedence_excludes_conflict patLitAB patSlashWild (Or.inl (by decide))⟩

/-- C3: Anti-symmetry of path comparison — `moreGeneral` flips to
`moreSpecific`, and `equivalent`, `overlaps`, `disjoint` are symmetric. -/
theorem comparePaths_antisymmetric (a b : Pattern) :
    (comparePaths a b = moreGeneral → comparePaths b a = moreSpecific) ∧
    (comparePaths a b = equivalent → comparePaths b a = equivalent) ∧
    (comparePaths a b = overlaps → comparePaths b a = overlaps) ∧
    (comparePaths a b = disjoint → comparePaths b a = disjoint) := by
  refine ⟨?_, ?_, ?_, ?_⟩ <;> intro h <;> rw [comparePaths_flip a b, h] <;> rfl

/-- Witness for C3 at `/{x}` and `/a`. -/
theorem comparePaths_antisymmetric_witness :
    comparePaths patOneWild patOneLit = moreGeneral ∧
    comparePaths patOneLit patOneWild = moreSpecific :=
  ⟨by decide, (comparePaths_antisymmetric patOneWild patOneLit).1 (by decide)⟩

/-- C1: the conflict index is not sound on this code.  With `/a/b`
registered, `possiblyConflictingPatterns` visits no pattern at all for
the new pattern `GET /{x0}/`, yet `ConflictsWith` holds between them
(the method relation `moreSpecific` combines with the path relation
`moreGeneral` to `overlaps`). -/
theorem index_soundness_failing_input :
    parse (str "/a/b") = .ok patLitAB ∧
    parse (str "GET /" ++ [braceO] ++ str "x0" ++ [braceC] ++ str "/") =
      .ok patAllWild ∧
    possiblyConflictingList (indexAddPattern emptyIndex patLitAB) patAllWild
      = [] ∧
    ConflictsWith patAllWild patLitAB = true := by decide

/-- C8: `matchMethodAndPath` has no HEAD-to-GET fallback.  With
`GET /p` and `/p` registered, a HEAD request matches the method-less
`/p`, not `GET /p`; with only `GET /foo` registered, a HEAD request
does not match at all. -/
theorem head_no_get_fallback :
    parse (str "GET /p") = .ok patGetP ∧
    ((treeMatch treeHeadGet (str "HEAD") [] (str "/p")).join.map
      (fun r => nodePat r.1)) = some (some patAnonP) ∧
    patAnonP ≠ patGetP ∧
    (treeMatch treeGetOnly (str "HEAD") [] (str "/foo")).join.isSome
      = false := by decide

/-- C9 counterexample: in array mode, adding an already-present key
appends, and `find` keeps returning the first (old) value. -/
theorem mapping_array_mode_keeps_first :
    mappingFind
      (mappingAdd (mappingAdd ({ s := [], m := none } : mapping Nat)
        (str "a") 1) (str "a") 2) (str "a") = some 1 ∧
    (1 : Nat) ≠ 2 := by decide

/-- C10: `PathValue` on a request with no recorded match returns the
empty string; the nil match record is guarded by `match.get`. -/
theorem pathValue_unmatched_empty (mux : ServeMux) (r : Nat) (name : GoStr)
    (h : storeLookup mux.matchStore r = none) :
    PathValue mux r name = [] := by
  unfold PathValue
  rw [h]
  rfl

/-- Witness for C10 on an empty multiplexer. -/
theorem pathValue_unmatched_empty_witness :
    storeLookup (ServeMux.mk emptyNode []).matchStore 0 = none ∧
    PathValue (ServeMux.mk emptyNode []) 0 (str "x") = [] :=
  ⟨rfl, pathValue_unmatched_empty (ServeMux.mk emptyNode []) 0 (str "x") rfl⟩

/-- C6 counterexample: `//` has no method part and an unclean path, yet
`Parse` accepts it (the clean-path check only fires for a non-empty,
non-CONNECT method). -/
theorem unclean_no_method_accepted :
    methodOf (str "//") = [] ∧
    pathOf (str "//") ≠ cleanPath (pathOf (str "//")) ∧
    isOkE (parse (str "//")) = true := by decide

/-- C7 counterexample: `CONNECT /`, built from the accepted part `/`,
is rejected (`CONNECT` is missing from the `methods` list), and
`GET /a//b`, built from the accepted part `/a//b`, is rejected by the
clean-path check. -/
theorem method_space_part_cex :
    isOkE (parse (str "/")) = true ∧
    isOkE (parse (str "CONNECT /")) = false ∧
    isOkE (parse (str "/a//b")) = true ∧
    isOkE (parse (str "GET /a//b")) = false := by decide

/-- C4 counterexample: `Parse " a b/c"` succeeds (empty method, host
`a b`), its `String` is `a b/c`, and re-parsing that fails with a bad
method error. -/
theorem roundtrip_cex :
    (∃ p, parse (str " a b/c") = .ok p ∧ patternString p = str "a b/c") ∧
    isOkE (parse (str "a b/c")) = false := by
  refine ⟨⟨⟨[], str "a b", [⟨str "c", false, false⟩]⟩, by decide, by decide⟩,
    by decide⟩

/-- C5 (amended): for a non-CONNECT request, if the match on the cleaned
path is not exact but the match on the slash-appended cleaned path is,
the multiplexer answers with a 301 redirect to the slash-appended path. -/
theorem redirect_on_exact_slash_match (t : node) (r : request)
    (hm : r.method ≠ str "CONNECT")
    (h0 : (cleanPath r.path).getLast? ≠ some '/')
    (h1 : (treeMatch t r.method (stripHostPort r.host)
      (cleanPath r.path)).isSome = true)
    (h2 : exactMatch ((treeMatch t r.method (stripHostPort r.host)
      (cleanPath r.path)).join.map (·.1)) (cleanPath r.path) = false)
    (h3 : exactMatch ((treeMatch t r.method (stripHostPort r.host)
      (cleanPath r.path ++ str "/")).join.map (·.1))
      (cleanPath r.path ++ str "/") = true) :
    muxHandler t r = some (.redirect301 (cleanPath r.path ++ str "/")) := by
  obtain ⟨res1, hres1⟩ := Option.isSome_iff_exists.mp h1
  rw [hres1] at h2
  simp only [Option.join, Option.some_bind, id_eq] at h2
  cases hres2 : treeMatch t r.method (stripHostPort r.host)
      (cleanPath r.path ++ str "/") with
  | none =>
    rw [hres2] at h3
    simp [exactMatch] at h3
  | some res2 =>
    rw [hres2] at h3
    simp only [Option.join, Option.some_bind, id_eq] at h3
    unfold muxHandler matchOrRedirect
    rw [if_neg hm, hres1, hres2]
    simp [h2, h3]

/-- Witness for C5 (amended) at the tree `/a/{x}/` and the request
`GET /a/b`: a 301 redirect to `/a/b/`. -/
theorem redirect_on_exact_slash_match_witness :
    ((reqGetAB.method ≠ str "CONNECT") ∧
     (cleanPath reqGetAB.path).getLast? ≠ some '/') ∧
    muxHandler treeAXslash reqGetAB =
      some (.redirect301 (cleanPath reqGetAB.path ++ str "/")) :=
  ⟨⟨by decide, by decide⟩,
   redirect_on_exact_slash_match treeAXslash reqGetAB (by decide) (by decide)
     (by decide) (by decide) (by decide)⟩

/-- C5 counterexample: the claim fails for CONNECT requests, whose paths
are not cleaned before matching.  With `/{x}/{y}/b` and `/a/b/`
registered, the request `CONNECT /a//b` satisfies the claim's
hypotheses on the cleaned path `/a/b` — its match is not exact while the
match of `/a/b/` is — yet the multiplexer dispatches to `/{x}/{y}/b` on
the raw path instead of returning a 301. -/
theorem redirect_claim_fails_for_connect :
    cleanPath reqConnect.path = str "/a/b" ∧
    (cleanPath reqConnect.path).getLast? ≠ some '/' ∧
    exactMatch ((treeMatch treeXYB reqConnect.method
      (stripHostPort reqConnect.host) (cleanPath reqConnect.path)).join.map
      (·.1)) (cleanPath reqConnect.path) = false ∧
    exactMatch ((treeMatch treeXYB reqConnect.method
      (stripHostPort reqConnect.host)
      (cleanPath reqConnect.path ++ str "/")).join.map (·.1))
      (cleanPath reqConnect.path ++ str "/") = true ∧
    muxHandler treeXYB reqConnect =
      some (.matched patXYB [str "a", []]) := by decide

/-- C6 (amended): a pattern text with a present, non-CONNECT method part
and an unclean path part is rejected by `Parse`. -/
theorem parse_rejects_unclean_with_method (s : GoStr)
    (hM1 : methodOf s ≠ [])
    (hM2 : methodOf s ≠ str "CONNECT")
    (hP : pathOf s ≠ cleanPath (pathOf s)) :
    isOkE (parse s) = false := by
  unfold parse
  split_ifs with h1 h2 h3 h4 h5
  · rfl
  · rfl
  · rfl
  · rfl
  · rfl
  · exact absurd ⟨hM1, hM2, hP⟩ h5

/-- Witness for C6 (amended) at `GET /a//b`. -/
theorem parse_rejects_unclean_with_method_witness :
    (methodOf (str "GET /a//b") ≠ [] ∧
     methodOf (str "GET /a//b") ≠ str "CONNECT" ∧
     pathOf (str "GET /a//b") ≠ cleanPath (pathOf (str "GET /a//b"))) ∧
    isOkE (parse (str "GET /a//b")) = false :=
  ⟨⟨by decide, by decide, by decide⟩,
   parse_rejects_unclean_with_method (str "GET /a//b") (by decide) (by decide)
     (by decide)⟩

theorem braceO_ne_braceC : braceO ≠ braceC := by decide

theorem dropWhile_head_eq {p : Char → Bool} (l : GoStr) (c : Char)
    (h : (l.dropWhile p).head? = some c) : p c = false := by
  induction l with
  | nil => simp at h
  | cons a t ih =>
    by_cases hpa : p a
    · rw [List.dropWhile_cons_of_pos hpa] at h
      exact ih h
    · rw [List.dropWhile_cons_of_neg hpa] at h
      simp only [List.head?_cons, Option.some.injEq] at h
      rw [← h]
      exact Bool.eq_false_iff.mpr hpa

theorem takeWhile_app_cont {p : Char → Bool} (m l : GoStr) (c : Char)
    (hm : ∀ x ∈ m, p x = true) (hc : p c = true) :
    (m ++ c :: l).takeWhile p = m ++ c :: l.takeWhile p := by
  induction m with
  | nil => simp [List.takeWhile_cons, hc]
  | cons a t ih =>
    have ha : p a = true := hm a (List.mem_cons_self a t)
    simp only [List.cons_append, List.takeWhile_cons, ha, if_true]
    rw [ih (fun x hx => hm x (List.mem_cons_of_mem a hx))]

theorem dropWhile_app_cont {p : Char → Bool} (m l : GoStr) (c : Char)
    (hm : ∀ x ∈ m, p x = true) (hc : p c = true) :
    (m ++ c :: l).dropWhile p = l.dropWhile p := by
  induction m with
  | nil => simp [List.dropWhile_cons, hc]
  | cons a t ih =>
    have ha : p a = true := hm a (List.mem_cons_self a t)
    simp only [List.cons_append, List.dropWhile_cons, ha, if_true]
    exact ih (fun x hx => hm x (List.mem_cons_of_mem a hx))

theorem takeWhile_app_stop {p : Char → Bool} (m l : GoStr) (c : Char)
    (hm : ∀ x ∈ m, p x = true) (hc : p c = false) :
    (m ++ c :: l).takeWhile p = m := by
  induction m with
  | nil => simp [List.takeWhile_cons, hc]
  | cons a t ih =>
    have ha : p a = true := hm a (List.mem_cons_self a t)
    simp only [List.cons_append, List.takeWhile_cons, ha, if_true]
    rw [ih (fun x hx => hm x (List.mem_cons_of_mem a hx))]

theorem dropWhile_app_stop {p : Char → Bool} (m l : GoStr) (c : Char)
    (hm : ∀ x ∈ m, p x = true) (hc : p c = false) :
    (m ++ c :: l).dropWhile p = c :: l := by
  induction m with
  | nil => simp [List.dropWhile_cons, hc]
  | cons a t ih =>
    have ha : p a = true := hm a (List.mem_cons_self a t)
    simp only [List.cons_append, List.dropWhile_cons, ha, if_true]
    exact ih (fun x hx => hm x (List.mem_cons_of_mem a hx))

theorem cutCh_found (c : Char) (s : GoStr) (h : (cutCh c s).2.2 = true) :
    s = (cutCh c s).1 ++ c :: (cutCh c s).2.1 ∧
      ∀ x ∈ (cutCh c s).1, x ≠ c := by
  have hsplit := List.takeWhile_append_dropWhile
    (p := fun x => decide (x ≠ c)) (l := s)
  cases hd : s.dropWhile (· ≠ c) with
  | nil =>
    have hcut : cutCh c s = (s, [], false) := by unfold cutCh; rw [hd]
    rw [hcut] at h
    simp at h
  | cons a t =>
    have hcut : cutCh c s = (s.takeWhile (· ≠ c), t, true) := by
      unfold cutCh; rw [hd]
    have hac : a = c := by
      have := dropWhile_head_eq (p := fun x => decide (x ≠ c)) s a
        (by rw [hd]; rfl)
      simpa using this
    rw [hcut]
    constructor
    · conv_lhs => rw [← hsplit, hd, hac]
    · intro x hx
      simpa using List.mem_takeWhile_imp hx

theorem cutCh_append (c : Char) (m l : GoStr) (hm : ∀ x ∈ m, x ≠ c) :
    cutCh c (m ++ c :: l) = (m, l, true) := by
  unfold cutCh
  rw [takeWhile_app_stop m l c (fun x hx => by simpa using hm x hx) (by simp),
    dropWhile_app_stop m l c (fun x hx => by simpa using hm x hx) (by simp)]

theorem pathOf_head (s : GoStr) (h : pathOf s ≠ []) :
    (pathOf s).head? = some '/' := by
  cases hh : (pathOf s).head? with
  | none => exact absurd (List.head?_eq_none_iff.mp hh) h
  | some a =>
    have hh2 : ((restOf s).dropWhile (fun x => decide (x ≠ '/'))).head?
        = some a := hh
    have ha : a = '/' := by
      simpa using dropWhile_head_eq (restOf s) a hh2
    rw [ha]

theorem parse_ok_inv {s : GoStr} {p : Pattern} (h : parse s = .ok p) :
    (methodOf s = [] ∨ methods.contains (methodOf s) = true) ∧
    pathOf s ≠ [] ∧
    (hostOf s).contains braceO = false ∧
    parseSegs (pathOf s) [] = .ok p.segments ∧
    p.method = methodOf s ∧ p.host = hostOf s := by
  unfold parse at h
  split_ifs at h with h1 h2 h3 h4 h5
  cases hps : parseSegs (pathOf s) [] with
  | error e => rw [hps] at h; exact absurd h (by simp)
  | ok segs =>
    rw [hps] at h
    simp only [Except.ok.injEq] at h
    subst h
    refine ⟨?_, h3, ?_, rfl, rfl, rfl⟩
    · rcases not_and_or.mp h2 with hx | hx
      · exact Or.inl (not_not.mp hx)
      · exact Or.inr (by simpa using not_not.mp hx)
    · simpa using h4

theorem segsString_cons (x : segment) (l : List segment) :
    segsString (x :: l) = segString x ++ segsString l := by
  simp [segsString]

theorem str_slash_append (l : GoStr) : str "/" ++ l = '/' :: l := rfl

theorem sg_decomp (sg : GoStr) (h1 : sg.head? = some braceO)
    (h2 : sg.getLast? = some braceC) :
    sg = braceO :: ((sg.drop 1).dropLast ++ [braceC]) := by
  cases sg with
  | nil => simp at h1
  | cons a t =>
    simp only [List.head?_cons, Option.some.injEq] at h1
    subst h1
    cases t with
    | nil =>
      simp [List.getLast?] at h2
      exact (braceO_ne_braceC h2).elim
    | cons b u =>
      have ht : (b :: u) ≠ [] := by simp
      rw [List.getLast?_cons_cons] at h2
      have h4 := List.dropLast_append_getLast? braceC h2
      simp only [List.drop_one, List.tail_cons]
      rw [← h4]
      simp

theorem suffix_take (nm : GoStr) (h : (str "...").isSuffixOf nm = true) :
    nm = nm.take (nm.length - 3) ++ str "..." := by
  rw [List.isSuffixOf_iff_suffix] at h
  obtain ⟨u, hu⟩ := h
  have hlen : nm.length = u.length + 3 := by rw [← hu]; simp [str]
  conv_lhs => rw [← hu]
  rw [hlen]
  simp only [Nat.add_sub_cancel]
  rw [← hu]
  rw [List.take_left u (str "...")]

theorem parseSegsF_nil (fuel : Nat) (seen : List GoStr) :
    parseSegsF fuel [] seen = .ok [] := by
  cases fuel <;> rfl

theorem parseSegsF_cons (fuel : Nat) (a : Char) (r : GoStr)
    (seen : List GoStr) :
    parseSegsF (fuel + 1) (a :: r) seen =
      (if r = [] then .ok [⟨[], true, true⟩]
       else
        let sg := r.takeWhile (· ≠ '/')
        let rest2 := r.dropWhile (· ≠ '/')
        if ¬sg.contains braceO then
          match parseSegsF fuel rest2 seen with
          | .error e => .error e
          | .ok segs => .ok (⟨sg, false, false⟩ :: segs)
        else if sg.head? ≠ some braceO then
          .error (str "bad wildcard segment: must start with a brace")
        else if sg.getLast? ≠ some braceC then
          .error (str "bad wildcard segment: must end with a brace")
        else
          let nm := (sg.drop 1).dropLast
          if nm = str "$" then
            if rest2 ≠ [] then .error (str "end anchor not at end")
            else .ok [⟨str "/", false, false⟩]
          else
            let multi := (str "...").isSuffixOf nm
            let nm2 := if multi then nm.take (nm.length - 3) else nm
            if multi ∧ rest2 ≠ [] then
              .error (str "multi wildcard not at end")
            else if nm2 = [] then .error (str "empty wildcard")
            else if ¬isValidWildcardName nm2 then
              .error (str "bad wildcard name")
            else if seen.contains nm2 then
              .error (str "duplicate wildcard name")
            else
              match parseSegsF fuel rest2 (nm2 :: seen) with
              | .error e => .error e
              | .ok segs => .ok (⟨nm2, true, multi⟩ :: segs)) := rfl

theorem parseSegsF_string :
    ∀ (fuel : Nat) (rest : GoStr) (seen : List GoStr) (segs : List segment),
      rest.length ≤ fuel → (rest ≠ [] → rest.head? = some '/') →
      parseSegsF fuel rest seen = .ok segs → segsString segs = rest := by
  intro fuel
  induction fuel with
  | zero =>
    intro rest seen segs hlen _ h
    cases rest with
    | nil =>
      rw [parseSegsF_nil] at h
      simp only [Except.ok.injEq] at h
      subst h
      rfl
    | cons a r => simp at hlen
  | succ fuel ih =>
    intro rest seen segs hlen hhead h
    cases rest with
    | nil =>
      rw [parseSegsF_nil] at h
      simp only [Except.ok.injEq] at h
      subst h
      rfl
    | cons a r =>
      have ha : a = '/' := by simpa using hhead (by simp)
      subst ha
      rw [parseSegsF_cons] at h
      simp only [] at h
      by_cases hr : r = []
      · subst hr
        rw [if_pos rfl] at h
        simp only [Except.ok.injEq] at h
        subst h
        rfl
      · rw [if_neg hr] at h
        have hsplit : r.takeWhile (· ≠ '/') ++ r.dropWhile (· ≠ '/') = r :=
          List.takeWhile_append_dropWhile _ r
        have hlen2 : (r.dropWhile (· ≠ '/')).length ≤ fuel := by
          have hs := (List.dropWhile_suffix (l := r)
            (fun x => decide (x ≠ '/'))).sublist.length_le
          simp only [List.length_cons] at hlen
          omega
        have hhead2 : r.dropWhile (· ≠ '/') ≠ [] →
            (r.dropWhile (· ≠ '/')).head? = some '/' := by
          intro hne
          cases hx : (r.dropWhile (· ≠ '/')).head? with
          | none => exact absurd (List.head?_eq_none_iff.mp hx) hne
          | some b =>
            have hb : b = '/' := by simpa using dropWhile_head_eq r b hx
            rw [hb]
        have hsgmem : ∀ x ∈ r.takeWhile (· ≠ '/'), x ≠ '/' := fun x hx => by
          simpa using List.mem_takeWhile_imp hx
        have hsgne : r.takeWhile (· ≠ '/') ≠ str "/" := by
          intro hcontra
          exact hsgmem '/' (by rw [hcontra]; simp [str]) rfl
        by_cases hbr : (r.takeWhile (· ≠ '/')).contains braceO = true
        · -- wildcard segment
          rw [if_neg (not_not_intro hbr)] at h
          by_cases hh1 : (r.takeWhile (· ≠ '/')).head? = some braceO
          case neg => rw [if_pos hh1] at h; exact absurd h (by simp)
          rw [if_neg (not_not_intro hh1)] at h
          by_cases hh2 : (r.takeWhile (· ≠ '/')).getLast? = some braceC
          case neg => rw [if_pos hh2] at h; exact absurd h (by simp)
          rw [if_neg (not_not_intro hh2)] at h
          have hdecomp := sg_decomp _ hh1 hh2
          by_cases hdollar : ((r.takeWhile (· ≠ '/')).drop 1).dropLast = str "$"
          · rw [if_pos hdollar] at h
            by_cases hre : r.dropWhile (· ≠ '/') = []
            case neg => rw [if_pos hre] at h; exact absurd h (by simp)
            rw [if_neg (not_not_intro hre)] at h
            simp only [Except.ok.injEq] at h
            subst h
            rw [segsString_cons]
            have : segString ⟨str "/", false, false⟩ =
                '/' :: braceO :: '$' :: [braceC] := by decide
            rw [this]
            show '/' :: braceO :: '$' :: [braceC] ++ segsString [] = '/' :: r
            conv_rhs => rw [← hsplit, hre, hdecomp, hdollar]
            rfl
          · rw [if_neg hdollar] at h
            -- ordinary or multi wildcard
            set nm := ((r.takeWhile (· ≠ '/')).drop 1).dropLast with hnm
            set N := (if ((str "...").isSuffixOf nm) = true then
                nm.take (nm.length - 3) else nm) with hNdef
            by_cases hc1 : ((str "...").isSuffixOf nm) = true ∧
                r.dropWhile (· ≠ '/') ≠ []
            · rw [if_pos hc1] at h
              exact absurd h (by simp)
            rw [if_neg hc1] at h
            by_cases hc2 : N = []
            · rw [if_pos hc2] at h
              exact absurd h (by simp)
            rw [if_neg hc2] at h
            by_cases hc3 : isValidWildcardName N = true
            case neg =>
              rw [if_pos hc3] at h
              exact absurd h (by simp)
            rw [if_neg (not_not_intro hc3)] at h
            by_cases hc4 : seen.contains N = true
            · rw [if_pos hc4] at h
              exact absurd h (by simp)
            rw [if_neg hc4] at h
            cases hrec : parseSegsF fuel (r.dropWhile (· ≠ '/')) (N :: seen) with
            | error e =>
              rw [hrec] at h
              exact absurd h (by simp)
            | ok segs2 =>
              rw [hrec] at h
              simp only [Except.ok.injEq] at h
              subst h
              rw [segsString_cons, ih _ _ segs2 hlen2 hhead2 hrec]
              conv_rhs => rw [← hsplit, hdecomp]
              by_cases hmul : ((str "...").isSuffixOf nm) = true
              · have hNval : N = nm.take (nm.length - 3) := by
                  rw [hNdef, if_pos hmul]
                have hsuf := suffix_take nm hmul
                have hseg : segString ⟨N, true, (str "...").isSuffixOf nm⟩ =
                    '/' :: braceO :: (N ++ (str "..." ++ [braceC])) := by
                  unfold segString
                  rw [if_neg (by intro hx; exact hc2 hx.2),
                    if_pos hmul]
                  simp [str_slash_append, List.append_assoc]
                rw [hseg]
                have hnmval : nm = N ++ str "..." := by rw [hNval, ← hsuf]
                rw [hnmval]
                simp [List.append_assoc]
              · have hmf : (str "...").isSuffixOf nm = false :=
                  Bool.eq_false_iff.mpr hmul
                have hNval : N = nm := by rw [hNdef, if_neg hmul]
                have hseg : segString ⟨N, true, (str "...").isSuffixOf nm⟩ =
                    '/' :: braceO :: (N ++ [braceC]) := by
                  unfold segString
                  rw [hmf]
                  rw [if_neg (by simp), if_neg (by simp), if_pos rfl]
                  simp [str_slash_append, List.append_assoc]
                rw [hseg, hNval]
                simp [List.append_assoc]
        · -- literal segment
          rw [if_pos hbr] at h
          cases hrec : parseSegsF fuel (r.dropWhile (· ≠ '/')) seen with
          | error e => rw [hrec] at h; exact absurd h (by simp)
          | ok segs2 =>
            rw [hrec] at h
            simp only [Except.ok.injEq] at h
            subst h
            rw [segsString_cons]
            have hlit : segString ⟨r.takeWhile (· ≠ '/'), false, false⟩ =
                '/' :: r.takeWhile (· ≠ '/') := by
              unfold segString
              rw [if_neg (by simp), if_neg (by simp), if_neg (by simp),
                if_neg (by simpa using hsgne)]
              rfl
            rw [hlit, ih _ seen segs2 hlen2 hhead2 hrec]
            simp only [List.cons_append]
            rw [hsplit]

theorem patternString_eq {s : GoStr} {p : Pattern} (h : parse s = .ok p)
    (hsp : s.head? ≠ some ' ') : patternString p = s := by
  obtain ⟨hmeth, hpne, hbrc, hps, hpm, hph⟩ := parse_ok_inv h
  have hseg : segsString p.segments = pathOf s :=
    parseSegsF_string (pathOf s).length (pathOf s) [] p.segments le_rfl
      (fun _ => pathOf_head s hpne) hps
  unfold patternString
  rw [hpm, hph, hseg]
  cases hf : (cutCh ' ' s).2.2 with
  | false =>
    have hm0 : methodOf s = [] := by unfold methodOf; rw [hf]; simp
    have hr0 : restOf s = s := by unfold restOf; rw [hf]; simp
    rw [hm0, if_neg (by simp)]
    unfold hostOf pathOf
    rw [hr0, List.nil_append]
    exact List.takeWhile_append_dropWhile _ s
  | true =>
    obtain ⟨hdec, hmem⟩ := cutCh_found ' ' s hf
    have hm0 : methodOf s = (cutCh ' ' s).1 := by
      unfold methodOf; rw [hf]; simp
    have hr0 : restOf s = (cutCh ' ' s).2.1 := by
      unfold restOf; rw [hf]; simp
    have hpre_ne : (cutCh ' ' s).1 ≠ [] := by
      intro h0
      apply hsp
      rw [hdec, h0]
      rfl
    rw [hm0, if_pos hpre_ne]
    unfold hostOf pathOf
    rw [hr0, List.append_assoc, List.takeWhile_append_dropWhile]
    conv_rhs => rw [hdec]
    simp

/-- C4 (amended): every accepted pattern text that does not begin with a
space round-trips — `Parse(Parse(t).String())` succeeds and yields the
same pattern.  (Indeed `Parse(t).String() = t` for such texts.) -/
theorem parse_roundtrip (s : GoStr) (p : Pattern) (h : parse s = .ok p)
    (hsp : s.head? ≠ some ' ') : parse (patternString p) = .ok p := by
  rw [patternString_eq h hsp]
  exact h

/-- Witness for C4 (amended) at `GET /a/b`. -/
theorem parse_roundtrip_witness :
    ((str "GET /a/b").head? ≠ some ' ' ∧
     parse (str "GET /a/b") = .ok patGETAB) ∧
    parse (patternString patGETAB) = .ok patGETAB :=
  ⟨⟨by decide, by decide⟩,
   parse_roundtrip (str "GET /a/b") patGETAB (by decide) (by decide)⟩

theorem methods_facts : ∀ m ∈ methods, m ≠ [] ∧ m ≠ str "CONNECT" ∧
    ∀ x ∈ m, x ≠ ' ' ∧ x ≠ '/' ∧ x ≠ braceO := by decide

theorem contains_false_iff (l : GoStr) (c : Char) :
    l.contains c = false ↔ c ∉ l := by
  constructor
  · intro h hmem
    have hx := List.elem_eq_true_of_mem hmem
    rw [show l.contains c = l.elem c from rfl, hx] at h
    simp at h
  · intro h
    cases hc : l.contains c
    · rfl
    · exact absurd (List.mem_of_elem_eq_true hc) h

theorem methodOf_append (m part : GoStr) (hm : ∀ x ∈ m, x ≠ ' ') :
    methodOf (m ++ ' ' :: part) = m := by
  unfold methodOf
  rw [cutCh_append ' ' m part hm]
  rfl

theorem restOf_append (m part : GoStr) (hm : ∀ x ∈ m, x ≠ ' ') :
    restOf (m ++ ' ' :: part) = part := by
  unfold restOf
  rw [cutCh_append ' ' m part hm]
  rfl

theorem pathOf_parsed_eq (part : GoStr) {p : Pattern}
    (hok : parse part = .ok p) :
    part.dropWhile (· ≠ '/') = pathOf part := by
  obtain ⟨hmeth, _, _, _, _, _⟩ := parse_ok_inv hok
  cases hf : (cutCh ' ' part).2.2 with
  | false =>
    have hr0 : restOf part = part := by unfold restOf; rw [hf]; simp
    unfold pathOf
    rw [hr0]
  | true =>
    obtain ⟨hdec, hsp⟩ := cutCh_found ' ' part hf
    have hm0 : methodOf part = (cutCh ' ' part).1 := by
      unfold methodOf; rw [hf]; simp
    have hr0 : restOf part = (cutCh ' ' part).2.1 := by
      unfold restOf; rw [hf]; simp
    have hslash : ∀ x ∈ (cutCh ' ' part).1, x ≠ '/' := by
      rcases hmeth with hx | hx
      · rw [hm0] at hx
        rw [hx]
        intro x hmem
        exact absurd hmem (List.not_mem_nil x)
      · rw [hm0] at hx
        intro y hy
        exact ((methods_facts _ (List.mem_of_elem_eq_true hx)).2.2 y hy).2.1
    unfold pathOf
    rw [hr0]
    conv_lhs => rw [hdec]
    exact dropWhile_app_cont _ _ ' '
      (fun x hx => by simpa using hslash x hx) (by simp)

theorem hostOf_brace_append (part : GoStr) {p : Pattern}
    (hok : parse part = .ok p) :
    braceO ∉ part.takeWhile (· ≠ '/') := by
  obtain ⟨hmeth, _, hbrc, _, _, _⟩ := parse_ok_inv hok
  cases hf : (cutCh ' ' part).2.2 with
  | false =>
    have hr0 : restOf part = part := by unfold restOf; rw [hf]; simp
    have : (hostOf part).contains braceO = false := hbrc
    rw [contains_false_iff] at this
    unfold hostOf at this
    rw [hr0] at this
    exact this
  | true =>
    obtain ⟨hdec, hsp⟩ := cutCh_found ' ' part hf
    have hm0 : methodOf part = (cutCh ' ' part).1 := by
      unfold methodOf; rw [hf]; simp
    have hr0 : restOf part = (cutCh ' ' part).2.1 := by
      unfold restOf; rw [hf]; simp
    have hbfree : ∀ x ∈ (cutCh ' ' part).1, x ≠ braceO ∧ x ≠ '/' := by
      rcases hmeth with hx | hx
      · rw [hm0] at hx
        rw [hx]
        intro x hmem
        exact absurd hmem (List.not_mem_nil x)
      · rw [hm0] at hx
        intro y hy
        have hf2 := (methods_facts _ (List.mem_of_elem_eq_true hx)).2.2 y hy
        exact ⟨hf2.2.2, hf2.2.1⟩
    have hhost : (hostOf part).contains braceO = false := hbrc
    rw [contains_false_iff] at hhost
    unfold hostOf at hhost
    rw [hr0] at hhost
    have hgoal : part.takeWhile (· ≠ '/') =
        (cutCh ' ' part).1 ++
          ' ' :: ((cutCh ' ' part).2.1.takeWhile (· ≠ '/')) := by
      conv_lhs => rw [hdec]
      exact takeWhile_app_cont _ _ ' '
        (fun x hx => by simpa using (hbfree x hx).2) (by simp)
    rw [hgoal]
    intro hmem
    rcases List.mem_append.mp hmem with hx | hx
    · exact (hbfree braceO hx).1 rfl
    · rcases List.mem_cons.mp hx with hx2 | hx2
      · exact absurd hx2.symm (by decide)
      · exact hhost hx2

/-- C7 (amended): prefixing an accepted host/path part whose path part is
already clean with one of the eight method tokens of the `methods` list
and a space yields a pattern text that `Parse` accepts. -/
theorem method_prefix_accepted (m part : GoStr) (p : Pattern)
    (hm : m ∈ methods) (hok : parse part = .ok p)
    (hclean : pathOf part = cleanPath (pathOf part)) :
    isOkE (parse (m ++ ' ' :: part)) = true := by
  obtain ⟨hmne, hmC, hmchars⟩ := methods_facts m hm
  have hspacefree : ∀ x ∈ m, x ≠ ' ' := fun x hx => (hmchars x hx).1
  have hMeq := methodOf_append m part hspacefree
  have hReq := restOf_append m part hspacefree
  have hPeq : pathOf (m ++ ' ' :: part) = pathOf part := by
    unfold pathOf
    rw [hReq]
    exact pathOf_parsed_eq part hok
  obtain ⟨_, hpne, _, hps, _, _⟩ := parse_ok_inv hok
  unfold parse
  rw [if_neg (by simp)]
  rw [hMeq, hPeq]
  rw [if_neg (fun hx => hx.2 (List.elem_eq_true_of_mem hm))]
  rw [if_neg hpne]
  have hhost : (hostOf (m ++ ' ' :: part)).contains braceO = false := by
    rw [contains_false_iff]
    unfold hostOf
    rw [hReq]
    exact hostOf_brace_append part hok
  rw [if_neg (by rw [hhost]; simp)]
  rw [if_neg (fun hx => hx.2.2 hclean)]
  rw [hps]
  rfl

/-- Witness for C7 (amended) at `GET` and `/a`. -/
theorem method_prefix_accepted_witness :
    (str "GET" ∈ methods ∧ parse (str "/a") = .ok patOneLit ∧
     pathOf (str "/a") = cleanPath (pathOf (str "/a"))) ∧
    isOkE (parse (str "GET" ++ ' ' :: str "/a")) = true :=
  ⟨⟨by decide, by decide, by decide⟩,
   method_prefix_accepted (str "GET") (str "/a") patOneLit (by decide)
     (by decide) (by decide)⟩

theorem mapLookup_assign {α : Type} (m : List (GoStr × α)) (k : GoStr)
    (v : α) : mapLookup (mapAssign m k v) k = some v := by
  induction m with
  | nil => simp [mapAssign, mapLookup]
  | cons e rest ih =>
    by_cases he : e.1 = k
    · simp [mapAssign, he, mapLookup]
    · simp [mapAssign, he, mapLookup, ih]

/-- C9 (amended): after `add(k, v)`, `find(k)` returns `v` whenever the
mapping is in map mode, or the slice has reached the threshold (so the
add promotes and overwrites), or the key is not already present.  (In
array mode below the threshold, adding a duplicate key appends, and
`find` keeps returning the first value — see the counterexample.) -/
theorem mapping_add_find {α : Type} (h : mapping α) (k : GoStr) (v : α)
    (hc : h.m.isSome = true ∨ maxSlice ≤ h.s.length ∨
      h.s.find? (fun e => e.1 = k) = none) :
    mappingFind (mappingAdd h k v) k = some v := by
  unfold mappingAdd
  cases hm : h.m with
  | some m =>
    simp only [mappingFind]
    exact mapLookup_assign m k v
  | none =>
    by_cases hlen : h.s.length < maxSlice
    · rw [if_pos hlen]
      have hfind : h.s.find? (fun e => e.1 = k) = none := by
        rcases hc with hx | hx | hx
        · rw [hm] at hx
          simp at hx
        · omega
        · exact hx
      simp only [mappingFind, hm]
      rw [List.find?_append, hfind]
      simp
    · rw [if_neg hlen]
      simp only [mappingFind]
      exact mapLookup_assign _ k v

/-- Witness for C9 (amended) on an empty mapping. -/
theorem mapping_add_find_witness :
    (({ s := [], m := none } : mapping Nat).s.find?
      (fun e => e.1 = str "a") = none) ∧
    mappingFind (mappingAdd ({ s := [], m := none } : mapping Nat)
      (str "a") 5) (str "a") = some 5 :=
  ⟨rfl, mapping_add_find ({ s := [], m := none } : mapping Nat) (str "a") 5
    (Or.inr (Or.inr rfl))⟩

end Muxpatterns
